import Mathlib

/-!
Verification of the mismatch-report reconciliation engine
(source: conditions_checking.py of the Mismatch_report repository).

The Python source works on strings, pandas rows and floats.  The shallow
embedding below models:
* Python strings as Lean `String` (a list of characters); `str.strip`,
  `str.lower`, `in`, `startswith` are modelled on ASCII data, which covers
  every string the engine manipulates;
* pandas cell values as `Option String` (`none` models `None`/`NaN`);
* the float arithmetic of the price computation as `ℚ` (the claims under
  study are about comparison/branch structure, not rounding);
* the handful of fixed regular expressions of the source
  (`re.split`, `re.match`, `re.findall`, `re.sub` calls) as hand-compiled
  total recursive matchers that follow the backtracking order of the
  Python engine (leftmost match, greedy/lazy quantifiers, `.` not
  matching a newline, case-insensitive literals where `re.IGNORECASE`
  is passed).
Each definition names, in its doc comment, the source function it embeds.
-/

/-- The quote character used by the `Applies If` grammar of the source. -/
def quoteChar : Char := Char.ofNat 39

/-- ASCII model of the Python whitespace class `\s` (and of the
characters removed by `str.strip`). -/
def isPySpace (c : Char) : Bool :=
  c = ' ' || c = '\t' || c = '\n' || c = '\r' || c = Char.ofNat 11 || c = Char.ofNat 12

/-- Drop leading and trailing whitespace from a character list:
model of Python `str.strip()`. -/
def pyStripL (cs : List Char) : List Char :=
  ((cs.dropWhile isPySpace).reverse.dropWhile isPySpace).reverse

/-- Model of Python `str.strip()`. -/
def pyStrip (s : String) : String :=
  ⟨pyStripL s.data⟩

/-- Lower-case a character list: model of Python `str.lower()` on ASCII data. -/
def pyLowerL (cs : List Char) : List Char :=
  cs.map Char.toLower

/-- Model of Python `str.lower()` on ASCII data. -/
def pyLower (s : String) : String :=
  ⟨pyLowerL s.data⟩

/-- Substring containment on character lists: model of the Python
operator `needle in hay` on strings. -/
def listContainsSub (hay needle : List Char) : Bool :=
  (List.range (hay.length + 1)).any (fun i => needle.isPrefixOf (hay.drop i))

/-- Model of Python `needle in hay` for strings. -/
def strContains (hay needle : String) : Bool :=
  listContainsSub hay.data needle.data

/-- Model of Python `s.startswith(pre)`. -/
def pyStartsWith (s pre : String) : Bool :=
  pre.data.isPrefixOf s.data

/-- Python `repr` of a string as it appears inside an f-string rendering
of a list (the expected values never contain quotes in the data the
engine sees, so no escaping is modelled). -/
def pyQuoteRepr (s : String) : String :=
  String.mk [quoteChar] ++ s ++ String.mk [quoteChar]

/-- Python f-string rendering of a list of strings,
for example the `expected one of ['a', 'b']` message parts. -/
def pyListRepr (vs : List String) : String :=
  "[" ++ String.intercalate ", " (vs.map pyQuoteRepr) ++ "]"

/-!  Generic pieces of the hand-compiled regular expressions. -/

/-- Consume a case-insensitive literal (given lower-case) from the front
of the input; the regex-literal building block. -/
def dropLitCI (lit : List Char) (cs : List Char) : Option (List Char) :=
  if (cs.take lit.length).map Char.toLower = lit then some (cs.drop lit.length) else none

/-- Consume `\s+` (one or more whitespace characters, greedily). -/
def dropWs1 (cs : List Char) : Option (List Char) :=
  match cs with
  | c :: _ => if isPySpace c then some (cs.dropWhile isPySpace) else none
  | [] => none

/-- Greedy `.` run: the characters a `(.+)` group captures from the
current position (Python `.` does not match a newline). -/
def dotTake (cs : List Char) : List Char :=
  cs.takeWhile (fun c => c ≠ '\n')

/-- Backtracking of `\s*` directly followed by `(.+)` when the remaining
input is all whitespace: the star gives back characters until `(.+)` can
take one non-newline character.  Returns the capture, if any. -/
def wsCornerCapture (cs : List Char) : Option (List Char) :=
  match cs.reverse.dropWhile (fun d => d = '\n') with
  | c :: _ => some [c]
  | [] => none

/-- The list of characters of "to" (lower-case), used by the
`(?:to\s+)?` optional group. -/
def toChars : List Char := ['t', 'o']

/-- Tail matcher for the regex fragment `\s*(.+)` (the tail of the
`does not contain` and `contains?` patterns).  Follows the engine
order: the star is greedy, then `(.+)` captures the rest of the line;
if only whitespace remains the star backtracks. -/
def tailWsRest (cs : List Char) : Option (List Char) :=
  let r0 := cs.dropWhile isPySpace
  if r0.isEmpty then wsCornerCapture cs else some (dotTake r0)

/-- Tail matcher for the regex fragment `\s+(.+)` (the tail of the
`starts? with` pattern): at least one whitespace character, then a
non-empty capture. -/
def tailWs1Rest (cs : List Char) : Option (List Char) :=
  match cs with
  | [] => none
  | c :: _ =>
    if isPySpace c then
      let r0 := cs.dropWhile isPySpace
      if r0.isEmpty then
        match cs.reverse.dropWhile (fun d => d = '\n') with
        | e :: _ :: _ => some [e]
        | _ => none
      else some (dotTake r0)
    else none

/-- Tail matcher for the regex fragment `\s*(?:to\s+)?(.+)` (the tail of
the `does not equal [to]` and `equal[s] [to]` patterns), following the
backtracking order of the Python engine: the optional `to` group is
tried before being skipped, and inner quantifiers give characters back
to `(.+)` when the input would otherwise run out. -/
def tailWsToRest (cs : List Char) : Option (List Char) :=
  let r0 := cs.dropWhile isPySpace
  if r0.isEmpty then wsCornerCapture cs
  else
    match dropLitCI toChars r0 with
    | some r2 =>
        let r3 := r2.dropWhile isPySpace
        if r3.isEmpty then
          match r2.reverse.dropWhile (fun d => d = '\n') with
          | e :: _ :: _ => some [e]
          | _ => some (dotTake r0)
        else if r3.length < r2.length then some (dotTake r3)
        else some (dotTake r0)
    | none => some (dotTake r0)

/-- Matcher for the part of `(.+?)\s+does\s+not\s+equal\s*(?:to\s+)?(.+)`
after the lazy group (source: parse_applies_if_condition, the
`not_equal_match` pattern).  Returns the second capture. -/
def restDoesNotEqual (cs : List Char) : Option (List Char) := do
  let a ← dropWs1 cs
  let b ← dropLitCI ['d', 'o', 'e', 's'] a
  let c ← dropWs1 b
  let d ← dropLitCI ['n', 'o', 't'] c
  let e ← dropWs1 d
  let f ← dropLitCI ['e', 'q', 'u', 'a', 'l'] e
  tailWsToRest f

/-- Matcher for the part of `(.+?)\s+does\s+not\s+contain\s*(.+)` after
the lazy group (the `not_contain_match` pattern). -/
def restDoesNotContain (cs : List Char) : Option (List Char) := do
  let a ← dropWs1 cs
  let b ← dropLitCI ['d', 'o', 'e', 's'] a
  let c ← dropWs1 b
  let d ← dropLitCI ['n', 'o', 't'] c
  let e ← dropWs1 d
  let f ← dropLitCI ['c', 'o', 'n', 't', 'a', 'i', 'n'] e
  tailWsRest f

/-- Matcher for the part of `(.+?)\s+equals?\s*(?:to\s+)?(.+)` after the
lazy group (the `equals_match` pattern).  The optional `s` is consumed
when present; if the tail then fails, the engine backtracks and the
`s` itself becomes the start of the capture. -/
def restEquals (cs : List Char) : Option (List Char) := do
  let a ← dropWs1 cs
  let b ← dropLitCI ['e', 'q', 'u', 'a', 'l'] a
  match b with
  | c :: rest =>
    if c.toLower = 's' then
      match tailWsToRest rest with
      | some r => some r
      | none => some (c :: rest)
    else tailWsToRest b
  | [] => tailWsToRest []

/-- Matcher for the part of `(.+?)\s+starts?\s+with\s+(.+)` after the
lazy group (the `starts_match` pattern). -/
def restStartsWith (cs : List Char) : Option (List Char) := do
  let a ← dropWs1 cs
  let b ← dropLitCI ['s', 't', 'a', 'r', 't'] a
  let b2 := match b with
    | c :: rest => if c.toLower = 's' then rest else b
    | [] => b
  let c ← dropWs1 b2
  let d ← dropLitCI ['w', 'i', 't', 'h'] c
  tailWs1Rest d

/-- Matcher for the part of `(.+?)\s+contains?\s+(.+)` after the lazy
group (the `contains_match` pattern).  When the optional `s` is present
but not followed by whitespace, backtracking cannot help: `\s+` fails
on the `s` itself, so the whole pattern fails. -/
def restContains (cs : List Char) : Option (List Char) := do
  let a ← dropWs1 cs
  let b ← dropLitCI ['c', 'o', 'n', 't', 'a', 'i', 'n'] a
  let b2 := match b with
    | c :: rest => if c.toLower = 's' then rest else b
    | [] => b
  tailWs1Rest b2

/-- The lazy group `(.+?)` of the five condition patterns: try the
shortest non-empty prefix first, growing it until the rest of the
pattern matches.  Since Python `.` does not match a newline, the group
never crosses one; `re.match` anchors the pattern at the start of the
string.  Returns (first capture, second capture). -/
def lazySplitAux (rm : List Char → Option (List Char)) :
    List Char → List Char → Option (List Char × List Char)
  | _, [] => none
  | acc, c :: cs =>
    if c = '\n' then none
    else
      match rm cs with
      | some r => some ((c :: acc).reverse, r)
      | none => lazySplitAux rm (c :: acc) cs

/-- Model of `re.match(r"(.+?) <pattern-rest> (.+)", sub_part, re.IGNORECASE)`
for the five condition patterns of the source. -/
def lazySplit (rm : List Char → Option (List Char)) (cs : List Char) :
    Option (List Char × List Char) :=
  lazySplitAux rm [] cs

/-- One separator match of `re.split(r"\d+\.\s*", text)` at the current
position: one or more digits (greedy), a literal dot, then any
whitespace.  Returns the rest of the input after the separator. -/
def matchNumDot (cs : List Char) : Option (List Char) :=
  match cs with
  | c :: rest =>
    if c.isDigit then
      match rest.dropWhile Char.isDigit with
      | '.' :: r2 => some (r2.dropWhile isPySpace)
      | _ => none
    else none
  | [] => none

theorem matchNumDot_length_lt {cs rest : List Char} (h : matchNumDot cs = some rest) :
    rest.length < cs.length := by
  match cs with
  | [] => simp [matchNumDot] at h
  | c :: tl =>
    simp only [matchNumDot] at h
    split at h
    · split at h
      next r2 heq =>
        cases h
        have h2 : (tl.dropWhile Char.isDigit).length ≤ tl.length :=
          (List.dropWhile_suffix _).length_le
        rw [heq] at h2
        have h3 : (r2.dropWhile isPySpace).length ≤ r2.length :=
          (List.dropWhile_suffix _).length_le
        simp only [List.length_cons] at h2 ⊢
        omega
      next => simp at h
    · simp at h

/-- Model of `re.split(r"\d+\.\s*", text)`: scan for the leftmost
separator match, cut, continue after it (source:
parse_applies_if_condition, the numbered-clause split).  The fuel only
serves structural recursion: every step either consumes one scanned
character or a whole separator (matchNumDot_length_lt), so starting
from `length + 1` the zero-fuel fallback is never reached. -/
def splitNumberedAux : ℕ → List Char → List Char → List (List Char)
  | 0, acc, cs => [acc.reverse ++ cs]
  | _ + 1, acc, [] => [acc.reverse]
  | fuel + 1, acc, c :: cs =>
    match matchNumDot (c :: cs) with
    | some rest => acc.reverse :: splitNumberedAux fuel [] rest
    | none => splitNumberedAux fuel (c :: acc) cs

/-- Model of `re.split(r"\d+\.\s*", text)`. -/
def splitNumbered (cs : List Char) : List (List Char) :=
  splitNumberedAux (cs.length + 1) [] cs

/-- One separator match of `re.split(r"\s+and\s+", part, re.IGNORECASE)`
at the current position. -/
def matchAndSep (cs : List Char) : Option (List Char) :=
  match dropWs1 cs with
  | none => none
  | some a =>
    match dropLitCI ['a', 'n', 'd'] a with
    | none => none
    | some b => dropWs1 b

theorem dropWs1_length_le {cs rest : List Char} (h : dropWs1 cs = some rest) :
    rest.length ≤ cs.length := by
  match cs with
  | [] => simp [dropWs1] at h
  | c :: tl =>
    simp only [dropWs1] at h
    split at h
    · cases h
      exact (List.dropWhile_suffix _).length_le
    · simp at h

theorem dropWs1_length_lt {cs rest : List Char} (h : dropWs1 cs = some rest) :
    rest.length < cs.length := by
  match cs with
  | [] => simp [dropWs1] at h
  | c :: tl =>
    simp only [dropWs1] at h
    split at h
    next hc =>
      cases h
      rw [List.dropWhile_cons, if_pos hc]
      have h2 : (tl.dropWhile isPySpace).length ≤ tl.length :=
        (List.dropWhile_suffix _).length_le
      simp only [List.length_cons]
      omega
    next => simp at h

theorem dropLitCI_length_le {lit cs rest : List Char} (h : dropLitCI lit cs = some rest) :
    rest.length ≤ cs.length := by
  simp only [dropLitCI] at h
  split at h
  · cases h; simp
  · exact absurd h (by simp)

theorem matchAndSep_length_lt {cs rest : List Char} (h : matchAndSep cs = some rest) :
    rest.length < cs.length := by
  simp only [matchAndSep] at h
  split at h
  · simp at h
  next a ha =>
    split at h
    · simp at h
    next b hb =>
      have h1 := dropWs1_length_lt ha
      have h2 := dropLitCI_length_le hb
      have h3 := dropWs1_length_le h
      omega

/-- Model of `re.split(r"\s+and\s+", part, flags=re.IGNORECASE)`
(source: parse_applies_if_condition, the connective split).  Fuel as in
splitNumberedAux: a separator consumes at least one character
(matchAndSep_length_lt), so the zero-fuel fallback is never reached. -/
def splitAndAux : ℕ → List Char → List Char → List (List Char)
  | 0, acc, cs => [acc.reverse ++ cs]
  | _ + 1, acc, [] => [acc.reverse]
  | fuel + 1, acc, c :: cs =>
    match matchAndSep (c :: cs) with
    | some rest => acc.reverse :: splitAndAux fuel [] rest
    | none => splitAndAux fuel (c :: acc) cs

/-- Model of `re.split(r"\s+and\s+", part, flags=re.IGNORECASE)`. -/
def splitAnd (cs : List Char) : List (List Char) :=
  splitAndAux (cs.length + 1) [] cs

/-- The characters of "in all items" reversed and lower-cased, used to
recognise the suffix from the end of a clause. -/
def inAllItemsRev : List Char := "in all items".data.reverse

/-- Model of `re.sub(r"\s+in all items\s*$", "", part, flags=re.IGNORECASE)`
(source: parse_applies_if_condition).  The single possible match is
anchored at the end: trailing whitespace, the literal words, and the
whole whitespace run before them (leftmost match start). -/
def removeInAllItems (cs : List Char) : List Char :=
  let r := cs.reverse
  let r1 := r.dropWhile isPySpace
  match dropLitCI inAllItemsRev r1 with
  | some r2 =>
      let r3 := r2.dropWhile isPySpace
      if r3.length < r2.length then r3.reverse else cs
  | none => cs

/-- Scanner for `re.findall(r"'([^']*)'", values_str)`: outside a
quoted token the second argument is `none`; inside, it accumulates the
token characters in reverse.  A final unclosed quote yields no further
match, exactly as for the regex. -/
def findQuotedAux : List Char → Option (List Char) → List String
  | [], _ => []
  | c :: rest, none =>
      if c = quoteChar then findQuotedAux rest (some []) else findQuotedAux rest none
  | c :: rest, some acc =>
      if c = quoteChar then String.mk acc.reverse :: findQuotedAux rest none
      else findQuotedAux rest (some (c :: acc))

/-- Model of `re.findall(r"'([^']*)'", values_str)`: every single-quoted
token, scanning left to right, non-overlapping. -/
def findQuoted (cs : List Char) : List String :=
  findQuotedAux cs none

/-- The five comparison kinds of the `Applies If` grammar
(source: parse_applies_if_condition). -/
inductive CondType where
  | equals
  | does_not_equal
  | starts_with
  | contains_kind
  | does_not_contain
deriving DecidableEq, Repr

/-- One parsed condition: (column name, comparison, expected values)
(source: parse_applies_if_condition result tuples). -/
structure Cond where
  column : String
  ctype : CondType
  values : List String
deriving DecidableEq, Repr

/-- Build the condition appended for a matched pattern: the first
capture stripped is the column name, the quoted tokens of the second
capture are the expected values; a match with zero quoted values is
discarded (the loop does `continue` without appending). -/
def mkCond (col : List Char) (t : CondType) (rest : List Char) : Option Cond :=
  let vs := findQuoted rest
  if vs.isEmpty then none else some ⟨String.mk (pyStripL col), t, vs⟩

/-- Parse one sub-clause by trying the five comparison patterns in the
priority order of the source: does-not-equal, does-not-contain, equals,
starts-with, contains.  The first pattern whose regex matches consumes
the sub-clause (even when it is then discarded for lack of quoted
values); later patterns are not tried
(source: parse_applies_if_condition, the per-sub_part chain). -/
def parseSubClause (sub : List Char) : Option Cond :=
  match lazySplit restDoesNotEqual sub with
  | some (col, rest) => mkCond col CondType.does_not_equal rest
  | none =>
  match lazySplit restDoesNotContain sub with
  | some (col, rest) => mkCond col CondType.does_not_contain rest
  | none =>
  match lazySplit restEquals sub with
  | some (col, rest) => mkCond col CondType.equals rest
  | none =>
  match lazySplit restStartsWith sub with
  | some (col, rest) => mkCond col CondType.starts_with rest
  | none =>
  match lazySplit restContains sub with
  | some (col, rest) => mkCond col CondType.contains_kind rest
  | none => none

/-- Process one numbered part: strip it, drop it when empty, remove the
trailing "in all items", split on the "and" connective, and parse each
stripped non-empty sub-clause (source: parse_applies_if_condition,
the per-part loop body). -/
def processPart (part : List Char) : List Cond :=
  let p := pyStripL part
  if p.isEmpty then []
  else
    let p2 := removeInAllItems p
    let subs := splitAnd p2
    ((subs.map pyStripL).filter (fun sub => ¬ sub.isEmpty)).filterMap parseSubClause

/-- Model of parse_applies_if_condition (conditions_checking.py,
lines 885-1011): turn free-text `Applies If` rule text into the ordered
list of structured conditions.  `none` models a `None`/`NaN` cell.
Parsing is total by construction, the Lean counterpart of the
никогда-raises behaviour of the source. -/
def parse_applies_if_condition (appliesIfText : Option String) : List Cond :=
  match appliesIfText with
  | none => []
  | some raw =>
    let text := pyStrip raw
    if text.data.isEmpty then []
    else
      let lower := pyLower text
      if strContains lower "no condition" then []
      else if strContains lower "applies if invoiced" && strContains lower "carrier" &&
          decide (text.length < 50) && ! strContains lower "equals" &&
          ! strContains lower "starts" && ! strContains lower "contains" then []
      else
        ((splitNumbered text.data).map processPart).flatten

/-- A shipment attribute row: ordered column/value pairs, the model of
the `df_lc_etof_row` dict (`none` models a `None`/`NaN` cell). -/
abbrev ShipRow := List (String × Option String)

/-- The fixed synonym table of check_applies_if_condition
(conditions_checking.py, `column_mappings`). -/
def column_mappings : List (String × List String) :=
  [("origin country", ["SHIP_COUNTRY", "ship_country", "Origin Country", "origin_country"]),
   ("destination country",
    ["CUST_COUNTRY", "cust_country", "Destination Country", "destination_country", "dest_country"]),
   ("origin_country", ["SHIP_COUNTRY", "ship_country", "Origin Country"]),
   ("destination_country", ["CUST_COUNTRY", "cust_country", "Destination Country"]),
   ("ship country", ["SHIP_COUNTRY", "ship_country"]),
   ("cust country", ["CUST_COUNTRY", "cust_country"])]

/-- Normalisation `str(col).lower().replace(" ", "_").replace("-", "_")`
used for the case/underscore-insensitive comparison. -/
def undName (s : String) : List Char :=
  s.data.map (fun c =>
    let d := Char.toLower c
    if d = ' ' || d = '-' then '_' else d)

/-- Normalisation `lower().replace(" ", "").replace("_", "")` used for
the no-space comparison. -/
def nospaceName (s : String) : List Char :=
  (pyLowerL s.data).filter (fun c => c ≠ ' ' && c ≠ '_')

/-- Lookup in the synonym table: `column_mappings.get(key, [])`. -/
def lookupMapping (key : String) : List String :=
  match column_mappings.find? (fun p => p.1 = key) with
  | some p => p.2
  | none => []

/-- The two synonym-table probes of the source: first
`column_mappings.get(column_name.lower(), [])`, then, when that is
empty, `column_mappings.get(column_name_lower, [])` with the
underscore-normalised key. -/
def mappedColumnsFor (columnName : String) : List String :=
  let m1 := lookupMapping (pyLower columnName)
  if m1.isEmpty then lookupMapping (String.mk (undName columnName)) else m1

/-- Column resolution of check_applies_if_condition (conditions_checking.py,
lines 1042-1080): try the synonym table, then case/underscore-insensitive
equality, then no-space equality, then substring containment in either
direction.  Returns the matched column together with its value, or
`none` when the condition column resolves to no key of the row. -/
def resolveColumn (row : ShipRow) (columnName : String) : Option (String × Option String) :=
  let mapped := mappedColumnsFor columnName
  let viaMap : Option (String × Option String) :=
    mapped.findSome? (fun mc =>
      row.find? (fun p => pyLower p.1 = pyLower mc || p.1 = mc))
  match viaMap with
  | some cv => some cv
  | none =>
    row.find? (fun p =>
      undName p.1 = undName columnName ||
      nospaceName p.1 = nospaceName columnName ||
      strContains (pyLower p.1) (pyLower columnName) ||
      strContains (pyLower columnName) (pyLower p.1))

/-- The string a row cell is compared as: `""` for `None`/`NaN`, else
`str(value).strip()`. -/
def actualOf (v : Option String) : String :=
  match v with
  | none => ""
  | some s => pyStrip s

/-- Evaluate one condition against the row; `none` means the condition
passes, `some msg` is the failure reason of the source
(check_applies_if_condition, lines 1088-1127). -/
def checkCond (etof : String) (row : ShipRow) (c : Cond) : Option String :=
  match resolveColumn row c.column with
  | none =>
      some ("Column " ++ pyQuoteRepr c.column ++ " not found in shipment data for ETOF " ++ etof)
  | some (_, v) =>
    let actualStr := actualOf v
    let actualLower := pyLower actualStr
    match c.ctype with
    | CondType.equals =>
        if c.values.any (fun ev => pyLower actualStr = pyLower ev) then none
        else some ("Applies If not met: " ++ c.column ++ " is " ++ pyQuoteRepr actualStr ++
          ", expected one of " ++ pyListRepr c.values)
    | CondType.does_not_equal =>
        if c.values.all (fun ev => pyLower actualStr ≠ pyLower ev) then none
        else some ("Applies If not met: " ++ c.column ++ " is " ++ pyQuoteRepr actualStr ++
          ", should not be one of " ++ pyListRepr c.values)
    | CondType.starts_with =>
        if c.values.any (fun ev => (pyLower ev).data.isPrefixOf actualLower.data) then none
        else some ("Applies If not met: " ++ c.column ++ " is " ++ pyQuoteRepr actualStr ++
          ", should start with one of " ++ pyListRepr c.values)
    | CondType.contains_kind =>
        if c.values.any (fun ev => strContains actualLower (pyLower ev)) then none
        else some ("Applies If not met: " ++ c.column ++ " is " ++ pyQuoteRepr actualStr ++
          ", should contain one of " ++ pyListRepr c.values)
    | CondType.does_not_contain =>
        if c.values.all (fun ev => ! strContains actualLower (pyLower ev)) then none
        else some ("Applies If not met: " ++ c.column ++ " is " ++ pyQuoteRepr actualStr ++
          ", should not contain any of " ++ pyListRepr c.values)

/-- Model of check_applies_if_condition (conditions_checking.py, lines
1014-1131): all conditions must pass; evaluation stops at the first
failing condition and reports its reason; an empty list is satisfied. -/
def check_applies_if_condition (conds : List Cond) (etof : String) (row : ShipRow) :
    Bool × Option String :=
  match conds with
  | [] => (true, none)
  | c :: rest =>
    match checkCond etof row c with
    | some msg => (false, some msg)
    | none => check_applies_if_condition rest etof row

/-- The reversed characters after the last opening parenthesis of a
reversed run (= before the first opening parenthesis in source order). -/
def afterLastOpen : List Char → Option (List Char)
  | [] => none
  | c :: cs =>
    match afterLastOpen cs with
    | some r => some r
    | none => if c = '(' then some cs else none

/-- Recogniser for the single possible match of
`re.sub(r"\s*\([^)]*\)\s*$", "", s)` on the reversed input: trailing
whitespace, a closing parenthesis, a run without closing parentheses up
to the matching opening one (the leftmost match makes it the first
opening parenthesis of the run), and the whitespace run before it.
Returns the reversed remaining prefix, or `none` when the regex does
not match. -/
def parenSuffixRev (rcs : List Char) : Option (List Char) :=
  match rcs.dropWhile isPySpace with
  | ')' :: rest =>
    let run := rest.takeWhile (fun c => c ≠ ')')
    let rem := rest.drop run.length
    match afterLastOpen run with
    | some afterR => some (afterR ++ rem)
    | none => none
  | _ => none

/-- Model of `re.sub(r"\s*\([^)]*\)\s*$", "", s).strip()`: the base cost
name with a trailing parenthetical qualifier stripped (source:
get_all_matching_cost_conditions and get_all_matching_accessorial_costs). -/
def baseName (s : String) : String :=
  match parenSuffixRev s.data.reverse with
  | some aRev => String.mk (pyStripL aRev.reverse)
  | none => String.mk (pyStripL s.data)

/-- One row of the cost-conditions side table: (Cost Name, Rate By,
Applies If); `name` is the raw cell, `appliesIf` is `none` for a
`NaN` cell. -/
structure CostRow where
  name : String
  rateBy : String
  appliesIf : Option String
deriving DecidableEq, Repr

/-- The four-way name match of get_all_matching_cost_conditions
(conditions_checking.py, lines 786-793) and of
get_all_matching_accessorial_costs (lines 498-504): exact
case-insensitive equality, base-name equality, candidate starts-with
query, or query starts-with candidate.  `strippedName` is the
already-stripped cost-name cell.  Plain substring containment is not
among the disjuncts. -/
def is_cost_match (costType strippedName : String) : Bool :=
  let ctc := pyLower (pyStrip costType)
  let cnl := pyLower strippedName
  cnl = ctc || baseName cnl = baseName ctc ||
    pyStartsWith cnl ctc || pyStartsWith ctc cnl

/-- Model of get_all_matching_cost_conditions (conditions_checking.py,
lines 731-806): collect, in table order, every cost row whose stripped
name matches the queried cost type. -/
def get_all_matching_cost_conditions (costType : String) (rows : List CostRow) : List CostRow :=
  (rows.map (fun r => { r with name := pyStrip r.name })).filter
    (fun r => is_cost_match costType r.name)

/-- Python `max(l, key=len-of-name)`: the first row of maximal name
length (used by the satisfied-candidates branch of
find_best_matching_cost). -/
def pickLongest (l : List CostRow) : Option CostRow :=
  match l with
  | [] => none
  | a :: rest =>
    some (rest.foldl (fun best m => if best.name.length < m.name.length then m else best) a)

/-- Python `min(l, key=len-of-name)`: the first row of minimal name
length (used by the no-parseable-condition branch of
find_best_matching_cost). -/
def pickShortest (l : List CostRow) : Option CostRow :=
  match l with
  | [] => none
  | a :: rest =>
    some (rest.foldl (fun best m => if m.name.length < best.name.length then m else best) a)

/-- The classification of one matched candidate inside the
find_best_matching_cost loop: its parsed condition is non-empty, the
shipment data is non-empty, and the condition evaluates as met. -/
def candConditionsMet (rowData : ShipRow) (m : CostRow) : Bool :=
  ! (parse_applies_if_condition m.appliesIf).isEmpty && ! rowData.isEmpty &&
    (check_applies_if_condition (parse_applies_if_condition m.appliesIf) "check" rowData).1

/-- The complementary classification: the candidate lands in
`matches_without_conditions` — no parseable condition, or no shipment
data to check against. -/
def candNoConditions (rowData : ShipRow) (m : CostRow) : Bool :=
  (parse_applies_if_condition m.appliesIf).isEmpty || rowData.isEmpty

/-- Model of find_best_matching_cost (conditions_checking.py, lines
809-883): filter the candidates, return a sole match directly, and
otherwise prefer the longest-named candidate whose Applies If is met,
then the shortest-named candidate without parseable conditions, then
the first candidate. -/
def find_best_matching_cost (costType : String) (rows : List CostRow) (rowData : ShipRow) :
    Option CostRow :=
  let allMatches := get_all_matching_cost_conditions costType rows
  match allMatches with
  | [] => none
  | [m] => some m
  | _ =>
    let met := allMatches.filter (candConditionsMet rowData)
    let without := allMatches.filter (candNoConditions rowData)
    match pickLongest met with
    | some b => some b
    | none =>
      match pickShortest without with
      | some b => some b
      | none => allMatches.head?

/-- Model of get_cost_conditions_for_cost_type (conditions_checking.py,
lines 659-727): the comment-path lookup of Rate By and Applies If.
An exact case-insensitive match is sought first; failing that, the
first row whose name contains the query or is contained in it (plain
substring containment, unlike the main matcher). -/
def get_cost_conditions_for_cost_type (costType : String) (rows : List CostRow) :
    Option (String × Option String) :=
  let ctc := pyLower (pyStrip costType)
  match rows.find? (fun r => pyLower (pyStrip r.name) = ctc) with
  | some r => some (r.rateBy, r.appliesIf)
  | none =>
    match rows.find? (fun r =>
        strContains (pyLower (pyStrip r.name)) ctc ||
        strContains ctc (pyLower (pyStrip r.name))) with
    | some r => some (r.rateBy, r.appliesIf)
    | none => none

/-- The three derived output columns of the reconciliation engine for
one mismatch row (source: check_conditions_and_add_reason, the
rate_by_values / applies_if_values / reasons accumulators). -/
structure RowOutput where
  rateBy : String
  appliesIf : String
  reason : String
deriving DecidableEq, Repr

/-- Model of the pre-filled-comment short circuit of
check_conditions_and_add_reason (conditions_checking.py, lines
1916-1955): when the stripped Comment cell is non-empty it is used
verbatim as the Reason, Rate By and Applies If are resolved through
get_cost_conditions_for_cost_type only, and the rest of the per-row
logic (`mainLogic`) is never consulted. -/
def processMismatchRow (existingComment : String) (costType : String)
    (costRows : List CostRow) (mainLogic : Unit → RowOutput) : RowOutput :=
  if existingComment ≠ "" then
    let rb :=
      match get_cost_conditions_for_cost_type costType costRows with
      | some (r, _) => if r ≠ "" then pyStrip r else ""
      | none => ""
    let ai :=
      match get_cost_conditions_for_cost_type costType costRows with
      | some (_, some a) => if a ≠ "" then pyStrip a else ""
      | _ => ""
    ⟨rb, ai, existingComment⟩
  else mainLogic ()

/-- One weight-tiered price column: (column index, optional exclusive
lower bound, inclusive upper bound), as produced by
find_weight_tiered_price_columns. -/
abbrev Tier := ℕ × Option ℚ × ℚ

/-- The range description attached to a tier selection (the `range_desc`
strings of the source, kept structured: `le u` renders "<=u",
`between l u` renders ">l <=u", and `exceedsMax u` renders
"exceeds max tier u"). -/
inductive RangeDesc where
  | le (upper : ℚ)
  | between (lower upper : ℚ)
  | exceedsMax (upper : ℚ)
deriving DecidableEq, Repr

/-- The scan of select_price_column_by_weight over the sorted tiers:
first tier with a null lower bound accepts `weight <= upper`, later
tiers accept `lower < weight <= upper`; first match wins. -/
def selectTierLoop (weight : ℚ) : List Tier → Option (ℕ × RangeDesc)
  | [] => none
  | (i, none, u) :: rest =>
    if weight ≤ u then some (i, RangeDesc.le u) else selectTierLoop weight rest
  | (i, some l, u) :: rest =>
    if l < weight ∧ weight ≤ u then some (i, RangeDesc.between l u)
    else selectTierLoop weight rest

/-- Python `sorted(tiered_columns, key=upper bound)` (a stable sort). -/
def sortTiers (l : List Tier) : List Tier :=
  List.insertionSort (fun a b => a.2.2 ≤ b.2.2) l

/-- Model of select_price_column_by_weight (conditions_checking.py,
lines 1401-1452): sort the tiers by upper bound, select the first tier
containing the weight, and when the weight exceeds the last (maximal)
upper bound return no column with the explicit exceeds-max description.
`chargeWeight = none` models both a `None` weight and a weight
`float()` cannot parse. -/
def select_price_column_by_weight (tiered : List Tier) (chargeWeight : Option ℚ) :
    Option ℕ × Option RangeDesc :=
  if tiered.isEmpty then (none, none)
  else
    match chargeWeight with
    | none => (none, none)
    | some weight =>
      let sorted := sortTiers tiered
      match selectTierLoop weight sorted with
      | some (i, d) => (some i, some d)
      | none =>
        match sorted.getLast? with
        | some t => if t.2.2 < weight then (none, some (RangeDesc.exceedsMax t.2.2)) else (none, none)
        | none => (none, none)

/-- Character class `[\d,\s]` of the rate-lane regex. -/
def laneClass (c : Char) : Bool :=
  c.isDigit || c = ',' || isPySpace c

/-- One match attempt of `re.search(r"Rate\s+lanes?:\s*([\d,\s]+)", comment,
re.IGNORECASE)` at the current position (source: extract_rate_lane).
Returns the first capture: after the greedy `\s*`, the class run; when
the run is all whitespace the star backtracks one character. -/
def matchRateLane (cs : List Char) : Option (List Char) := do
  let a ← dropLitCI ['r', 'a', 't', 'e'] cs
  let b ← dropWs1 a
  let c ← dropLitCI ['l', 'a', 'n', 'e'] b
  let d ← match c with
    | e :: ':' :: r5 => if e.toLower = 's' then some r5 else none
    | ':' :: r5 => some r5
    | _ => none
  let s := d.takeWhile laneClass
  if s.isEmpty then none
  else
    let w := s.takeWhile isPySpace
    if w.length = s.length then
      match s.reverse with
      | c2 :: _ => some [c2]
      | [] => none
    else some (s.drop w.length)

/-- The scan of `re.search` over the comment for the rate-lane pattern:
leftmost match wins. -/
def searchRateLane : List Char → Option (List Char)
  | [] => none
  | c :: cs =>
    match matchRateLane (c :: cs) with
    | some g => some g
    | none => searchRateLane cs

/-- Split a character list on commas (Python `str.split(",")`). -/
def splitOnComma (cs : List Char) : List (List Char) :=
  match cs with
  | [] => [[]]
  | ',' :: rest => [] :: splitOnComma rest
  | c :: rest =>
    match splitOnComma rest with
    | h :: t => (c :: h) :: t
    | [] => [[c]]

/-- Model of extract_rate_lane (conditions_checking.py, lines
1455-1478): search the comment for the rate-lane annotation, split the
capture on commas, strip each piece and keep the non-empty ones. -/
def extract_rate_lane (comment : Option String) : List String :=
  match comment with
  | none => []
  | some s =>
    match searchRateLane s.data with
    | none => []
    | some g =>
      ((splitOnComma g).map pyStripL).filterMap
        (fun l => if l.isEmpty then none else some (String.mk l))

/-- The per-shipment lane branch of check_conditions_and_add_reason
(conditions_checking.py, lines 2157-2187): with no comment the price
lookup cannot proceed; one extracted lane proceeds to the rate-table
price lookup; several extracted lanes are terminal with the
manual-check reason — the price lookup is only reached through
`singleLane`. -/
inductive LaneStep where
  | noComment
  | noLanes
  | multiLanes (reason : String)
  | singleLane (lane : String)
deriving DecidableEq, Repr

/-- The lane-resolution step of the engine for one row (source:
check_conditions_and_add_reason, lines 2157-2187). -/
def laneResolutionStep (comment : Option String) : LaneStep :=
  match comment with
  | none => LaneStep.noComment
  | some c =>
    if c = "" then LaneStep.noComment
    else
      let lanes := extract_rate_lane (some c)
      if lanes.isEmpty then LaneStep.noLanes
      else if 1 < lanes.length then
        LaneStep.multiLanes
          ("Multiple rate lanes found (" ++ String.intercalate ", " lanes ++
            ") - manual check required")
      else LaneStep.singleLane (lanes.headD "")

/-- The outcome of the final price computation of
check_conditions_and_add_reason: which reason template is produced.
`minApplied m` stands for the "MIN price applied - ..." reason,
`maxApplied m` for "MAX price applied - ...", and `computedTotal t`
for the plain "Cost per unit: ..., Total: ..." reason. -/
inductive PriceOutcome where
  | minApplied (minPrice : ℚ)
  | maxApplied (maxPrice : ℚ)
  | computedTotal (total : ℚ)
deriving DecidableEq, Repr

/-- Model of the MIN/MAX clamp of check_conditions_and_add_reason
(conditions_checking.py, lines 2395-2431): compute
`total = price * multiplier`; when a MIN price exists and the total is
below it, the MIN reason is produced; the MAX price is consulted only
when MIN did not apply (`if not min_applied and max_price ...`), and
produces the MAX reason when the total exceeds it.  The arguments model
the already-parsed floats; a MIN or MAX cell that is absent or fails
`float()` is `none`. -/
def clampWithMinMax (pricePerUnit multiplier : ℚ) (minPrice maxPrice : Option ℚ) :
    PriceOutcome :=
  let total := pricePerUnit * multiplier
  let minApplied : Bool :=
    match minPrice with
    | some m => decide (total < m)
    | none => false
  if minApplied then
    match minPrice with
    | some m => PriceOutcome.minApplied m
    | none => PriceOutcome.computedTotal total
  else
    match maxPrice with
    | some mx => if mx < total then PriceOutcome.maxApplied mx else PriceOutcome.computedTotal total
    | none => PriceOutcome.computedTotal total

/-!  Claim theorems. -/

/-- C1: for every per-unit-priced row with numeric price and multiplier,
the engine computes `total = pricePerUnit * multiplier` and checks MIN
first: when a MIN price exists and the total is below it the MIN reason
is produced and MAX is never consulted (the outcome does not depend on
the MAX argument at all); the MAX reason is produced only when MIN did
not apply and a MAX exists that the total exceeds; and at most one of
MIN/MAX ever applies. -/
theorem minmax_clamp_order (p q : ℚ) (minP maxP : Option ℚ) :
    (∀ m, minP = some m → p * q < m →
      clampWithMinMax p q minP maxP = PriceOutcome.minApplied m ∧
      ∀ maxP2, clampWithMinMax p q minP maxP2 = clampWithMinMax p q minP maxP) ∧
    (∀ mx, clampWithMinMax p q minP maxP = PriceOutcome.maxApplied mx →
      maxP = some mx ∧ mx < p * q ∧ ∀ m, minP = some m → m ≤ p * q) ∧
    (∀ m mx, ¬(clampWithMinMax p q minP maxP = PriceOutcome.minApplied m ∧
      clampWithMinMax p q minP maxP = PriceOutcome.maxApplied mx)) := by
  refine ⟨?_, ?_, ?_⟩
  · intro m hm hlt
    subst hm
    constructor
    · simp [clampWithMinMax, hlt]
    · intro maxP2
      simp [clampWithMinMax, hlt]
  · intro mx h
    cases minP with
    | none =>
      cases maxP with
      | none => simp [clampWithMinMax] at h
      | some mx2 =>
        by_cases hgt : mx2 < p * q
        · simp [clampWithMinMax, hgt] at h
          subst h
          exact ⟨rfl, hgt, by intro m hm; cases hm⟩
        · simp [clampWithMinMax, hgt] at h
    | some m =>
      by_cases hlt : p * q < m
      · simp [clampWithMinMax, hlt] at h
      · cases maxP with
        | none => simp [clampWithMinMax, hlt] at h
        | some mx2 =>
          by_cases hgt : mx2 < p * q
          · simp [clampWithMinMax, hlt, hgt] at h
            subst h
            refine ⟨rfl, hgt, ?_⟩
            intro m2 hm2
            cases hm2
            exact le_of_not_lt hlt
          · simp [clampWithMinMax, hlt, hgt] at h
  · intro m mx ⟨h1, h2⟩
    rw [h1] at h2
    cases h2

/-- Witness for C1 at a concrete input: price 2, multiplier 120,
MIN 300, MAX 100: the computed 240 is both below MIN and above MAX, yet
the MIN reason is produced. -/
theorem minmax_clamp_order_witness :
    clampWithMinMax 2 120 (some 300) (some 100) = PriceOutcome.minApplied 300 :=
  ((minmax_clamp_order 2 120 (some 300) (some 100)).1 300 rfl (by norm_num)).1

/-- C9: a mismatch row with a non-empty (stripped) Comment cell gets
that comment verbatim as its Reason, and the whole matching,
condition-evaluation and pricing logic is short-circuited: the result
does not depend on the main per-row logic at all. -/
theorem comment_verbatim_short_circuit (comment costType : String) (rows : List CostRow)
    (f g : Unit → RowOutput) (h : comment ≠ "") :
    (processMismatchRow comment costType rows f).reason = comment ∧
    processMismatchRow comment costType rows f = processMismatchRow comment costType rows g := by
  constructor
  · simp [processMismatchRow, h]
  · simp [processMismatchRow, h]

/-- Witness for C9: a concrete pre-filled comment survives verbatim,
whatever the main logic would have produced. -/
theorem comment_verbatim_short_circuit_witness :
    (processMismatchRow "agreed with carrier" "Pickup Fee" []
      (fun _ => ⟨"PER SHIPMENT", "", "computed reason"⟩)).reason = "agreed with carrier" :=
  (comment_verbatim_short_circuit "agreed with carrier" "Pickup Fee" []
    (fun _ => ⟨"PER SHIPMENT", "", "computed reason"⟩)
    (fun _ => ⟨"", "", ""⟩) (by decide)).1

/-- C10: the comment-path lookup get_cost_conditions_for_cost_type
falls back, after the exact case-insensitive match fails, to plain
substring containment in either direction; so in this path the query
"DGR Fee" resolves to the entry named "Air DGR Fee" — which the main
matcher is_cost_match rejects. -/
theorem comment_path_containment_fallback :
    (∀ (costType : String) (rows : List CostRow) (r : CostRow),
      rows.find? (fun r2 => pyLower (pyStrip r2.name) = pyLower (pyStrip costType)) = none →
      rows.find? (fun r2 =>
        strContains (pyLower (pyStrip r2.name)) (pyLower (pyStrip costType)) ||
        strContains (pyLower (pyStrip costType)) (pyLower (pyStrip r2.name))) = some r →
      get_cost_conditions_for_cost_type costType rows = some (r.rateBy, r.appliesIf)) ∧
    get_cost_conditions_for_cost_type "DGR Fee" [⟨"Air DGR Fee", "PER SHIPMENT", none⟩] =
      some ("PER SHIPMENT", none) ∧
    is_cost_match "DGR Fee" "Air DGR Fee" = false ∧
    (processMismatchRow "pre-filled comment" "DGR Fee" [⟨"Air DGR Fee", "PER SHIPMENT", none⟩]
      (fun _ => ⟨"", "", ""⟩)).rateBy = "PER SHIPMENT" := by
  refine ⟨?_, by decide, by decide, by decide⟩
  intro costType rows r h1 h2
  simp only [get_cost_conditions_for_cost_type, h1, h2]

/-- Witness for C10: the general containment-fallback conjunct applied
at the concrete DGR input. -/
theorem comment_path_containment_fallback_witness :
    get_cost_conditions_for_cost_type "DGR Fee"
      [⟨"Air DGR Fee", "PER SHIPMENT", some "No condition"⟩] =
      some ("PER SHIPMENT", some "No condition") :=
  comment_path_containment_fallback.1 "DGR Fee"
    [⟨"Air DGR Fee", "PER SHIPMENT", some "No condition"⟩]
    ⟨"Air DGR Fee", "PER SHIPMENT", some "No condition"⟩ (by decide) (by decide)

/-- C8: whenever the lane annotation yields more than one lane number,
the lane-resolution step is terminal with exactly the
"Multiple rate lanes found (...) - manual check required" reason (the
rate-table price lookup is only reached through the `singleLane`
outcome), and the concrete annotation "Rate lanes: 10, 20" produces
exactly "Multiple rate lanes found (10, 20) - manual check required". -/
theorem multi_lane_manual_check :
    (∀ c : String, 1 < (extract_rate_lane (some c)).length →
      laneResolutionStep (some c) = LaneStep.multiLanes
        ("Multiple rate lanes found (" ++
          String.intercalate ", " (extract_rate_lane (some c)) ++ ") - manual check required")) ∧
    extract_rate_lane (some "Rate lanes: 10, 20") = ["10", "20"] ∧
    laneResolutionStep (some "Rate lanes: 10, 20") =
      LaneStep.multiLanes "Multiple rate lanes found (10, 20) - manual check required" := by
  refine ⟨?_, by decide, by decide⟩
  intro c h
  have hne : c ≠ "" := by
    intro he
    subst he
    simp [extract_rate_lane, searchRateLane, String.data] at h
  have hemp : (extract_rate_lane (some c)).isEmpty = false := by
    cases hl : extract_rate_lane (some c) with
    | nil => rw [hl] at h; simp at h
    | cons a t => simp
  simp only [laneResolutionStep]
  rw [if_neg hne, if_neg (by rw [hemp]; simp), if_pos h]

/-- Witness for C8: the general multi-lane conjunct applied at a
concrete two-lane annotation. -/
theorem multi_lane_manual_check_witness :
    laneResolutionStep (some "Rate lanes: 7, 8") = LaneStep.multiLanes
      ("Multiple rate lanes found (" ++
        String.intercalate ", " (extract_rate_lane (some "Rate lanes: 7, 8")) ++
        ") - manual check required") :=
  multi_lane_manual_check.1 "Rate lanes: 7, 8" (by decide)

/-- C5: the sub-clause patterns are tried in the fixed priority order
does-not-equal, does-not-contain, equals, starts-with, contains.  When
the does-not-equal pattern matches the sub-clause, the result comes
from it alone (never from the equals pattern), and symmetrically for
does-not-contain before contains; and the order matters — the equals
pattern by itself does match the text "X does not equal to 'v'" (with
column capture "X does not"), yet the parse of that text is a
does_not_equal condition, and "X does not contain 'v'" parses as
does_not_contain, never contains. -/
theorem pattern_priority_order :
    (∀ sub col rest, lazySplit restDoesNotEqual sub = some (col, rest) →
      parseSubClause sub = mkCond col CondType.does_not_equal rest) ∧
    (∀ sub col rest, lazySplit restDoesNotEqual sub = none →
      lazySplit restDoesNotContain sub = some (col, rest) →
      parseSubClause sub = mkCond col CondType.does_not_contain rest) ∧
    parse_applies_if_condition (some "X does not equal to \x27v\x27") =
      [⟨"X", CondType.does_not_equal, ["v"]⟩] ∧
    parse_applies_if_condition (some "X does not contain \x27v\x27") =
      [⟨"X", CondType.does_not_contain, ["v"]⟩] ∧
    lazySplit restEquals "X does not equal to \x27v\x27".data =
      some ("X does not".data, "\x27v\x27".data) ∧
    lazySplit restContains "X does not contain \x27v\x27".data =
      some ("X does not".data, "\x27v\x27".data) := by
  refine ⟨?_, ?_, by decide, by decide, by decide, by decide⟩
  · intro sub col rest h
    simp only [parseSubClause, h]
  · intro sub col rest h1 h2
    simp only [parseSubClause, h1, h2]

/-- Witness for C5: the priority conjunct applied at a concrete
sub-clause. -/
theorem pattern_priority_order_witness :
    parseSubClause "A does not equal \x27w\x27".data =
      mkCond "A".data CondType.does_not_equal "\x27w\x27".data :=
  pattern_priority_order.1 "A does not equal \x27w\x27".data "A".data "\x27w\x27".data (by decide)

/-- C3: a candidate cost entry matches the queried cost-type name
exactly when one of the four disjuncts holds — case-insensitive
equality, base-name equality (trailing parenthetical stripped),
candidate starts-with query, query starts-with candidate; the filter of
get_all_matching_cost_conditions keeps exactly the stripped rows
satisfying the predicate; plain substring containment is excluded:
"DGR Fee" is a substring of (the lowering of) "Air DGR Fee", yet the
two do not match, while "DGR Fee (Hazardous)" does match "DGR Fee". -/
theorem cost_name_match_rule :
    (∀ q n : String, is_cost_match q n = true ↔
      (pyLower n = pyLower (pyStrip q) ∨
       baseName (pyLower n) = baseName (pyLower (pyStrip q)) ∨
       pyStartsWith (pyLower n) (pyLower (pyStrip q)) = true ∨
       pyStartsWith (pyLower (pyStrip q)) (pyLower n) = true)) ∧
    (∀ (ct : String) (rows : List CostRow) (r : CostRow),
      r ∈ get_all_matching_cost_conditions ct rows ↔
      (∃ r0 ∈ rows, r = { r0 with name := pyStrip r0.name } ∧ is_cost_match ct r.name = true)) ∧
    is_cost_match "DGR Fee" "Air DGR Fee" = false ∧
    strContains "air dgr fee" "dgr fee" = true ∧
    is_cost_match "DGR Fee" "DGR Fee (Hazardous)" = true := by
  refine ⟨?_, ?_, by decide, by decide, by decide⟩
  · intro q n
    simp only [is_cost_match, Bool.or_eq_true, decide_eq_true_eq]
    tauto
  · intro ct rows r
    simp only [get_all_matching_cost_conditions, List.mem_filter, List.mem_map]
    constructor
    · rintro ⟨⟨r0, hr0, hr⟩, hm⟩
      exact ⟨r0, hr0, hr.symm, hm⟩
    · rintro ⟨r0, hr0, hr, hm⟩
      exact ⟨⟨r0, hr0, hr.symm⟩, hm⟩

/-- Witness for C3: the membership conjunct applied at the concrete
DGR rows — the prefixed name is excluded, the parenthesised one kept. -/
theorem cost_name_match_rule_witness :
    (⟨"DGR Fee (Hazardous)", "PER SHIPMENT", none⟩ : CostRow) ∈
      get_all_matching_cost_conditions "DGR Fee"
        [⟨"Air DGR Fee", "PER SHIPMENT", none⟩, ⟨"DGR Fee (Hazardous)", "PER SHIPMENT", none⟩] :=
  (cost_name_match_rule.2.1 "DGR Fee"
    [⟨"Air DGR Fee", "PER SHIPMENT", none⟩, ⟨"DGR Fee (Hazardous)", "PER SHIPMENT", none⟩]
    ⟨"DGR Fee (Hazardous)", "PER SHIPMENT", none⟩).mpr
    ⟨⟨"DGR Fee (Hazardous)", "PER SHIPMENT", none⟩, by decide, by decide, by decide⟩

/-- C7: when a condition column resolves to no key of the shipment row
(synonym table, normalised equality and substring containment all
failing), the evaluator returns not-satisfied immediately with the
column-not-found reason; and whenever any condition of a non-empty list
has an unresolvable column, the overall verdict is not-satisfied — the
condition is never skipped. -/
theorem column_not_found_fail_closed :
    (∀ (c : Cond) (conds : List Cond) (etof : String) (row : ShipRow),
      resolveColumn row c.column = none →
      check_applies_if_condition (c :: conds) etof row =
        (false, some ("Column " ++ pyQuoteRepr c.column ++
          " not found in shipment data for ETOF " ++ etof))) ∧
    (∀ (conds : List Cond) (etof : String) (row : ShipRow),
      (∃ c ∈ conds, resolveColumn row c.column = none) →
      (check_applies_if_condition conds etof row).1 = false) := by
  constructor
  · intro c conds etof row h
    simp only [check_applies_if_condition, checkCond, h]
  · intro conds etof row ⟨c, hc, hres⟩
    induction conds with
    | nil => cases hc
    | cons c0 rest ih =>
      rcases List.mem_cons.mp hc with hceq | hcrest
      · subst hceq
        simp only [check_applies_if_condition, checkCond, hres]
      · simp only [check_applies_if_condition]
        cases hchk : checkCond etof row c0 with
        | some msg => rfl
        | none => exact ih hcrest

/-- Witness for C7: a condition on "Origin Country" against a row
holding only an unrelated column fails with the not-found reason. -/
theorem column_not_found_fail_closed_witness :
    check_applies_if_condition [⟨"Origin Country", CondType.equals, ["DE"]⟩] "E77"
      [("UNRELATED", some "x")] =
      (false, some ("Column " ++ pyQuoteRepr "Origin Country" ++
        " not found in shipment data for ETOF " ++ "E77")) :=
  column_not_found_fail_closed.1 ⟨"Origin Country", CondType.equals, ["DE"]⟩ [] "E77"
    [("UNRELATED", some "x")] (by decide)

/-- The membership test a tier performs inside the selection loop:
`weight <= upper` for the null-lower first tier, else
`lower < weight <= upper`. -/
def tierMatches (w : ℚ) : Tier → Prop
  | (_, none, u) => w ≤ u
  | (_, some l, u) => l < w ∧ w ≤ u

instance : IsTotal Tier (fun a b => a.2.2 ≤ b.2.2) :=
  ⟨fun a b => le_total a.2.2 b.2.2⟩

instance : IsTrans Tier (fun a b => a.2.2 ≤ b.2.2) :=
  ⟨fun _ _ _ h1 h2 => le_trans h1 h2⟩

theorem mem_sortTiers {t : Tier} {l : List Tier} : t ∈ sortTiers l ↔ t ∈ l :=
  (List.perm_insertionSort _ l).mem_iff

theorem sortTiers_pairwise (l : List Tier) :
    (sortTiers l).Pairwise (fun a b => a.2.2 ≤ b.2.2) :=
  List.sorted_insertionSort (fun a b : Tier => a.2.2 ≤ b.2.2) l

theorem selectTierLoop_sound {w : ℚ} : ∀ {L : List Tier} {i : ℕ} {d : RangeDesc},
    selectTierLoop w L = some (i, d) →
    ∃ l u, (i, l, u) ∈ L ∧
      ((l = none ∧ w ≤ u ∧ d = RangeDesc.le u) ∨
       (∃ lo, l = some lo ∧ lo < w ∧ w ≤ u ∧ d = RangeDesc.between lo u)) := by
  intro L
  induction L with
  | nil => intro i d h; simp [selectTierLoop] at h
  | cons t rest ih =>
    intro i d h
    obtain ⟨j, lo, u⟩ := t
    cases lo with
    | none =>
      simp only [selectTierLoop] at h
      split at h
      · cases h
        exact ⟨none, u, List.mem_cons_self _ _, Or.inl ⟨rfl, by assumption, rfl⟩⟩
      · obtain ⟨l2, u2, hmem, hca⟩ := ih h
        exact ⟨l2, u2, List.mem_cons_of_mem _ hmem, hca⟩
    | some lo0 =>
      simp only [selectTierLoop] at h
      split at h
      next hcond =>
        cases h
        exact ⟨some lo0, u, List.mem_cons_self _ _,
          Or.inr ⟨lo0, rfl, hcond.1, hcond.2, rfl⟩⟩
      next =>
        obtain ⟨l2, u2, hmem, hca⟩ := ih h
        exact ⟨l2, u2, List.mem_cons_of_mem _ hmem, hca⟩

theorem selectTierLoop_isSome_of_exists {w : ℚ} : ∀ {L : List Tier},
    (∃ t ∈ L, tierMatches w t) → (selectTierLoop w L).isSome = true := by
  intro L
  induction L with
  | nil => rintro ⟨t, ht, _⟩; cases ht
  | cons t rest ih =>
    rintro ⟨t2, ht2, hm⟩
    obtain ⟨j, lo, u⟩ := t
    rcases List.mem_cons.mp ht2 with rfl | hmem
    · cases lo with
      | none =>
        have hm2 : w ≤ u := hm
        simp only [selectTierLoop, if_pos hm2]
        rfl
      | some lo0 =>
        have hm2 : lo0 < w ∧ w ≤ u := hm
        simp only [selectTierLoop, if_pos hm2]
        rfl
    · cases lo with
      | none =>
        simp only [selectTierLoop]
        split
        · rfl
        · exact ih ⟨t2, hmem, hm⟩
      | some lo0 =>
        simp only [selectTierLoop]
        split
        · rfl
        · exact ih ⟨t2, hmem, hm⟩

theorem selectTierLoop_none_of_above {w : ℚ} : ∀ {L : List Tier},
    (∀ t ∈ L, t.2.2 < w) → selectTierLoop w L = none := by
  intro L
  induction L with
  | nil => intro _; rfl
  | cons t rest ih =>
    intro hall
    obtain ⟨j, lo, u⟩ := t
    have hu : u < w := hall (j, lo, u) (List.mem_cons_self _ _)
    cases lo with
    | none =>
      simp only [selectTierLoop, if_neg (not_le_of_lt hu)]
      exact ih (fun t ht => hall t (List.mem_cons_of_mem _ ht))
    | some lo0 =>
      have : ¬(lo0 < w ∧ w ≤ u) := fun hc => absurd hc.2 (not_le_of_lt hu)
      simp only [selectTierLoop, if_neg this]
      exact ih (fun t ht => hall t (List.mem_cons_of_mem _ ht))

theorem tier_getLast?_mem : ∀ {L : List Tier} {M : Tier}, L.getLast? = some M → M ∈ L := by
  intro L
  induction L with
  | nil => intro M h; simp at h
  | cons a t ih =>
    intro M h
    cases t with
    | nil =>
      rw [List.getLast?_singleton] at h
      cases h
      exact List.mem_singleton_self a
    | cons b t2 =>
      rw [List.getLast?_cons_cons] at h
      exact List.mem_cons_of_mem a (ih h)

theorem tier_pairwise_getLast_max : ∀ {L : List Tier} {M : Tier},
    L.Pairwise (fun a b => a.2.2 ≤ b.2.2) → L.getLast? = some M →
    ∀ x ∈ L, x.2.2 ≤ M.2.2 := by
  intro L
  induction L with
  | nil => intro M _ h; simp at h
  | cons a t ih =>
    intro M hp h
    cases t with
    | nil =>
      rw [List.getLast?_singleton] at h
      cases h
      intro x hx
      rcases List.mem_singleton.mp hx with rfl
      exact le_refl _
    | cons b t2 =>
      rw [List.getLast?_cons_cons] at h
      have hp2 := List.pairwise_cons.mp hp
      intro x hx
      rcases List.mem_cons.mp hx with rfl | hx2
      · exact hp2.1 M (tier_getLast?_mem h)
      · exact ih hp2.2 h x hx2

/-- The example tier table of the claim: upper bounds 200, 500, 1000. -/
def exampleTiers : List Tier := [(0, none, 200), (1, some 200, 500), (2, some 500, 1000)]

/-- C2: tier selection returns a column only for a tier of the input
that contains the weight under the `lower < weight <= upper` rule
(`weight <= upper` for the null-lower tier); whenever some tier
contains the weight a column is returned; when the weight exceeds every
upper bound the result is no column together with the explicit
exceeds-max description carrying the maximal upper bound — never a
fallback to the last tier.  On the tiers with upper bounds
[200, 500, 1000]: weight 200 selects the "<=200" tier, 200.01 selects
">200 <=500", and 1000.01 yields the exceeds-max description. -/
theorem weight_tier_selection :
    (∀ (tiered : List Tier) (w : ℚ) (i : ℕ) (d : RangeDesc),
      select_price_column_by_weight tiered (some w) = (some i, some d) →
      ∃ l u, (i, l, u) ∈ tiered ∧
        ((l = none ∧ w ≤ u ∧ d = RangeDesc.le u) ∨
         (∃ lo, l = some lo ∧ lo < w ∧ w ≤ u ∧ d = RangeDesc.between lo u))) ∧
    (∀ (tiered : List Tier) (w : ℚ),
      (∃ t ∈ tiered, tierMatches w t) →
      ∃ i d, select_price_column_by_weight tiered (some w) = (some i, some d)) ∧
    (∀ (tiered : List Tier) (w : ℚ), (∀ t ∈ tiered, t.2.2 < w) → tiered ≠ [] →
      ∃ M, select_price_column_by_weight tiered (some w) =
          (none, some (RangeDesc.exceedsMax M)) ∧
        (∃ t ∈ tiered, t.2.2 = M) ∧ (∀ t ∈ tiered, t.2.2 ≤ M)) ∧
    select_price_column_by_weight exampleTiers (some 200) =
      (some 0, some (RangeDesc.le 200)) ∧
    select_price_column_by_weight exampleTiers (some 200.01) =
      (some 1, some (RangeDesc.between 200 500)) ∧
    select_price_column_by_weight exampleTiers (some 1000.01) =
      (none, some (RangeDesc.exceedsMax 1000)) := by
  refine ⟨?_, ?_, ?_, by decide, ?_, ?_⟩
  case refine_4 =>
    have h1 : (200.01 : ℚ) = mkRat 20001 100 := by
      rw [show (200.01 : ℚ) = Rat.ofScientific 20001 true 2 from rfl]
      rw [Rat.ofScientific_true_def]
      norm_num
    rw [h1]
    decide
  case refine_5 =>
    have h1 : (1000.01 : ℚ) = mkRat 100001 100 := by
      rw [show (1000.01 : ℚ) = Rat.ofScientific 100001 true 2 from rfl]
      rw [Rat.ofScientific_true_def]
      norm_num
    rw [h1]
    decide
  · intro tiered w i d h
    simp only [select_price_column_by_weight] at h
    split at h
    · simp at h
    · generalize hsel : selectTierLoop w (sortTiers tiered) = res at h
      cases res with
      | some p =>
        obtain ⟨i2, d2⟩ := p
        simp only [Prod.mk.injEq, Option.some.injEq] at h
        obtain ⟨rfl, rfl⟩ := h
        obtain ⟨l, u, hmem, hca⟩ := selectTierLoop_sound hsel
        exact ⟨l, u, mem_sortTiers.mp hmem, hca⟩
      | none =>
        have h2 : (match (sortTiers tiered).getLast? with
            | some t =>
              if t.2.2 < w then ((none : Option ℕ), some (RangeDesc.exceedsMax t.2.2))
              else (none, none)
            | none => (none, none)) = (some i, some d) := h
        split at h2
        next t hlast =>
          split at h2
          · simp at h2
          · simp at h2
        next => simp at h2
  · intro tiered w hex
    have hne : tiered ≠ [] := by
      obtain ⟨t, ht, _⟩ := hex
      exact List.ne_nil_of_mem ht
    have hnemp : ¬ tiered.isEmpty = true := by
      rw [List.isEmpty_iff]
      exact hne
    obtain ⟨t, ht, hm⟩ := hex
    have hsome := selectTierLoop_isSome_of_exists (w := w)
      ⟨t, mem_sortTiers.mpr ht, hm⟩
    obtain ⟨⟨i, d⟩, hsel⟩ := Option.isSome_iff_exists.mp hsome
    refine ⟨i, d, ?_⟩
    simp only [select_price_column_by_weight]
    rw [if_neg hnemp, hsel]
  · intro tiered w hall hne
    have hnemp : ¬ tiered.isEmpty = true := by
      rw [List.isEmpty_iff]
      exact hne
    have hallsorted : ∀ t ∈ sortTiers tiered, t.2.2 < w :=
      fun t ht => hall t (mem_sortTiers.mp ht)
    have hloop := selectTierLoop_none_of_above hallsorted
    have hsne : sortTiers tiered ≠ [] := by
      intro h0
      have hp : (sortTiers tiered).Perm tiered :=
        List.perm_insertionSort (fun a b : Tier => a.2.2 ≤ b.2.2) tiered
      rw [h0] at hp
      exact hne hp.nil_eq.symm
    obtain ⟨M, hM⟩ : ∃ M, (sortTiers tiered).getLast? = some M := by
      cases hl : (sortTiers tiered).getLast? with
      | none => exact absurd (List.getLast?_eq_none.mp hl) hsne
      | some M => exact ⟨M, rfl⟩
    have hMmem : M ∈ tiered := mem_sortTiers.mp (tier_getLast?_mem hM)
    have hMlt : M.2.2 < w := hall M hMmem
    refine ⟨M.2.2, ?_, ⟨M, hMmem, rfl⟩, ?_⟩
    · simp only [select_price_column_by_weight]
      rw [if_neg hnemp, hloop, hM]
      show (if M.2.2 < w then ((none : Option ℕ), some (RangeDesc.exceedsMax M.2.2))
        else (none, none)) = (none, some (RangeDesc.exceedsMax M.2.2))
      rw [if_pos hMlt]
    · intro x hx
      exact tier_pairwise_getLast_max (sortTiers_pairwise tiered) hM x (mem_sortTiers.mpr hx)

/-- Witness for C2: the exceeds-max conjunct applied at the example
tiers with weight 1200. -/
theorem weight_tier_selection_witness :
    ∃ M, select_price_column_by_weight exampleTiers (some 1200) =
        (none, some (RangeDesc.exceedsMax M)) ∧
      (∃ t ∈ exampleTiers, t.2.2 = M) ∧ (∀ t ∈ exampleTiers, t.2.2 ≤ M) :=
  weight_tier_selection.2.2.1 exampleTiers 1200 (by decide) (by decide)

theorem pickLongest_spec : ∀ {l : List CostRow} {b : CostRow}, pickLongest l = some b →
    b ∈ l ∧ ∀ m ∈ l, m.name.length ≤ b.name.length := by
  have hfold : ∀ (rest : List CostRow) (a : CostRow),
      (rest.foldl (fun best m => if best.name.length < m.name.length then m else best) a = a ∨
        rest.foldl (fun best m => if best.name.length < m.name.length then m else best) a ∈ rest) ∧
      a.name.length ≤
        (rest.foldl (fun best m => if best.name.length < m.name.length then m else best) a).name.length ∧
      ∀ m ∈ rest, m.name.length ≤
        (rest.foldl (fun best m => if best.name.length < m.name.length then m else best) a).name.length := by
    intro rest
    induction rest with
    | nil => intro a; exact ⟨Or.inl rfl, le_refl _, by intro m hm; cases hm⟩
    | cons x xs ih =>
      intro a
      simp only [List.foldl_cons]
      obtain ⟨hmem, hge, hall⟩ := ih (if a.name.length < x.name.length then x else a)
      refine ⟨?_, ?_, ?_⟩
      · rcases hmem with heq | hmem2
        · rw [heq]
          split
          · exact Or.inr (List.mem_cons_self _ _)
          · exact Or.inl rfl
        · exact Or.inr (List.mem_cons_of_mem _ hmem2)
      · refine le_trans ?_ hge
        split
        · exact le_of_lt (by assumption)
        · exact le_refl _
      · intro m hm
        rcases List.mem_cons.mp hm with rfl | hm2
        · refine le_trans ?_ hge
          split
          · exact le_refl _
          · exact le_of_not_lt (by assumption)
        · exact hall m hm2
  intro l b h
  cases l with
  | nil => simp [pickLongest] at h
  | cons a rest =>
    simp only [pickLongest, Option.some.injEq] at h
    subst h
    obtain ⟨hmem, hge, hall⟩ := hfold rest a
    constructor
    · rcases hmem with heq | hmem2
      · rw [heq]; exact List.mem_cons_self _ _
      · exact List.mem_cons_of_mem _ hmem2
    · intro m hm
      rcases List.mem_cons.mp hm with rfl | hm2
      · exact hge
      · exact hall m hm2

theorem pickShortest_spec : ∀ {l : List CostRow} {b : CostRow}, pickShortest l = some b →
    b ∈ l ∧ ∀ m ∈ l, b.name.length ≤ m.name.length := by
  have hfold : ∀ (rest : List CostRow) (a : CostRow),
      (rest.foldl (fun best m => if m.name.length < best.name.length then m else best) a = a ∨
        rest.foldl (fun best m => if m.name.length < best.name.length then m else best) a ∈ rest) ∧
      (rest.foldl (fun best m => if m.name.length < best.name.length then m else best) a).name.length ≤
        a.name.length ∧
      ∀ m ∈ rest,
        (rest.foldl (fun best m => if m.name.length < best.name.length then m else best) a).name.length ≤
          m.name.length := by
    intro rest
    induction rest with
    | nil => intro a; exact ⟨Or.inl rfl, le_refl _, by intro m hm; cases hm⟩
    | cons x xs ih =>
      intro a
      simp only [List.foldl_cons]
      obtain ⟨hmem, hge, hall⟩ := ih (if x.name.length < a.name.length then x else a)
      refine ⟨?_, ?_, ?_⟩
      · rcases hmem with heq | hmem2
        · rw [heq]
          split
          · exact Or.inr (List.mem_cons_self _ _)
          · exact Or.inl rfl
        · exact Or.inr (List.mem_cons_of_mem _ hmem2)
      · refine le_trans hge ?_
        split
        · exact le_of_lt (by assumption)
        · exact le_refl _
      · intro m hm
        rcases List.mem_cons.mp hm with rfl | hm2
        · refine le_trans hge ?_
          split
          · exact le_refl _
          · exact le_of_not_lt (by assumption)
        · exact hall m hm2
  intro l b h
  cases l with
  | nil => simp [pickShortest] at h
  | cons a rest =>
    simp only [pickShortest, Option.some.injEq] at h
    subst h
    obtain ⟨hmem, hge, hall⟩ := hfold rest a
    constructor
    · rcases hmem with heq | hmem2
      · rw [heq]; exact List.mem_cons_self _ _
      · exact List.mem_cons_of_mem _ hmem2
    · intro m hm
      rcases List.mem_cons.mp hm with rfl | hm2
      · exact hge
      · exact hall m hm2

theorem pickLongest_eq_none : ∀ {l : List CostRow}, pickLongest l = none ↔ l = [] := by
  intro l
  cases l with
  | nil => simp [pickLongest]
  | cons a rest => simp [pickLongest]

theorem pickShortest_eq_none : ∀ {l : List CostRow}, pickShortest l = none ↔ l = [] := by
  intro l
  cases l with
  | nil => simp [pickShortest]
  | cons a rest => simp [pickShortest]

/-- C4: with several matching candidates and non-empty shipment data,
disambiguation follows the three-stage rule of find_best_matching_cost:
if some candidate passes its parsed Applies If check, a passing
candidate of maximal name length is returned; otherwise, if some
candidate has no parseable condition, such a candidate of minimal name
length is returned (with non-empty shipment data the
`matches_without_conditions` pool is exactly the candidates whose
condition list parses empty); otherwise the first candidate is
returned. -/
theorem cost_disambiguation_rule (costType : String) (rows : List CostRow) (rowData : ShipRow)
    (hrow : rowData ≠ [])
    (hmulti : 2 ≤ (get_all_matching_cost_conditions costType rows).length) :
    ((get_all_matching_cost_conditions costType rows).filter (candConditionsMet rowData) ≠ [] →
      ∃ b, find_best_matching_cost costType rows rowData = some b ∧
        b ∈ (get_all_matching_cost_conditions costType rows).filter (candConditionsMet rowData) ∧
        ∀ m ∈ (get_all_matching_cost_conditions costType rows).filter (candConditionsMet rowData),
          m.name.length ≤ b.name.length) ∧
    ((get_all_matching_cost_conditions costType rows).filter (candConditionsMet rowData) = [] →
      (get_all_matching_cost_conditions costType rows).filter (candNoConditions rowData) ≠ [] →
      ∃ b, find_best_matching_cost costType rows rowData = some b ∧
        b ∈ (get_all_matching_cost_conditions costType rows).filter (candNoConditions rowData) ∧
        (∀ m ∈ (get_all_matching_cost_conditions costType rows).filter (candNoConditions rowData),
          b.name.length ≤ m.name.length) ∧
        ∀ m ∈ (get_all_matching_cost_conditions costType rows).filter (candNoConditions rowData),
          parse_applies_if_condition m.appliesIf = []) ∧
    ((get_all_matching_cost_conditions costType rows).filter (candConditionsMet rowData) = [] →
      (get_all_matching_cost_conditions costType rows).filter (candNoConditions rowData) = [] →
      find_best_matching_cost costType rows rowData =
        (get_all_matching_cost_conditions costType rows).head?) := by
  obtain ⟨a, b0, rest, hA⟩ : ∃ a b0 rest,
      get_all_matching_cost_conditions costType rows = a :: b0 :: rest := by
    cases hA : get_all_matching_cost_conditions costType rows with
    | nil => rw [hA] at hmulti; simp at hmulti
    | cons a t =>
      cases t with
      | nil => rw [hA] at hmulti; simp at hmulti
      | cons b0 rest => exact ⟨a, b0, rest, rfl⟩
  have hbest : find_best_matching_cost costType rows rowData =
      (match pickLongest ((a :: b0 :: rest).filter (candConditionsMet rowData)) with
        | some b1 => some b1
        | none =>
          match pickShortest ((a :: b0 :: rest).filter (candNoConditions rowData)) with
          | some b1 => some b1
          | none => (a :: b0 :: rest).head?) := by
    simp only [find_best_matching_cost, hA]
  refine ⟨?_, ?_, ?_⟩
  · intro hmet
    rw [hA] at hmet ⊢
    cases hpl : pickLongest ((a :: b0 :: rest).filter (candConditionsMet rowData)) with
    | none => exact absurd (pickLongest_eq_none.mp hpl) hmet
    | some b1 =>
      obtain ⟨hmem, hmax⟩ := pickLongest_spec hpl
      refine ⟨b1, ?_, hmem, hmax⟩
      rw [hbest, hpl]
  · intro hmet hwo
    rw [hA] at hmet hwo ⊢
    cases hps : pickShortest ((a :: b0 :: rest).filter (candNoConditions rowData)) with
    | none => exact absurd (pickShortest_eq_none.mp hps) hwo
    | some b1 =>
      obtain ⟨hmem, hmin⟩ := pickShortest_spec hps
      refine ⟨b1, ?_, hmem, hmin, ?_⟩
      · rw [hbest, pickLongest_eq_none.mpr hmet, hps]
      · intro m hm
        have hcand := (List.mem_filter.mp hm).2
        simp only [candNoConditions, Bool.or_eq_true, List.isEmpty_iff] at hcand
        rcases hcand with hp | hr
        · exact hp
        · exact absurd hr hrow
  · intro hmet hwo
    rw [hA] at hmet hwo ⊢
    rw [hbest, pickLongest_eq_none.mpr hmet, pickShortest_eq_none.mpr hwo]

/-- Witness for C4: among three matching "Delivery Fee" variants
against a Sevilla shipment, the satisfied (Sevilla) candidate of
maximal name length is returned. -/
theorem cost_disambiguation_rule_witness :
    ∃ b, find_best_matching_cost "Delivery Fee"
        [⟨"Delivery Fee (Getafe)", "PER SHIPMENT", some "1. City equals \x27Getafe\x27"⟩,
         ⟨"Delivery Fee (Sevilla)", "PER SHIPMENT", some "1. City equals \x27Sevilla\x27"⟩,
         ⟨"Delivery Fee", "PER SHIPMENT", none⟩]
        [("City", some "Sevilla")] = some b ∧
      b ∈ (get_all_matching_cost_conditions "Delivery Fee"
          [⟨"Delivery Fee (Getafe)", "PER SHIPMENT", some "1. City equals \x27Getafe\x27"⟩,
           ⟨"Delivery Fee (Sevilla)", "PER SHIPMENT", some "1. City equals \x27Sevilla\x27"⟩,
           ⟨"Delivery Fee", "PER SHIPMENT", none⟩]).filter
          (candConditionsMet [("City", some "Sevilla")]) ∧
      ∀ m ∈ (get_all_matching_cost_conditions "Delivery Fee"
          [⟨"Delivery Fee (Getafe)", "PER SHIPMENT", some "1. City equals \x27Getafe\x27"⟩,
           ⟨"Delivery Fee (Sevilla)", "PER SHIPMENT", some "1. City equals \x27Sevilla\x27"⟩,
           ⟨"Delivery Fee", "PER SHIPMENT", none⟩]).filter
          (candConditionsMet [("City", some "Sevilla")]),
        m.name.length ≤ b.name.length :=
  (cost_disambiguation_rule "Delivery Fee"
    [⟨"Delivery Fee (Getafe)", "PER SHIPMENT", some "1. City equals \x27Getafe\x27"⟩,
     ⟨"Delivery Fee (Sevilla)", "PER SHIPMENT", some "1. City equals \x27Sevilla\x27"⟩,
     ⟨"Delivery Fee", "PER SHIPMENT", none⟩]
    [("City", some "Sevilla")] (by decide) (by decide)).1 (by decide)


/-!  Substring containment as infix, and how the parser splitting
functions only ever produce infixes of their input: the backbone of the
totality theorem for keyword-free condition text. -/

theorem listContainsSub_iff_infixOf {hay needle : List Char} :
    listContainsSub hay needle = true ↔ needle <:+: hay := by
  simp only [listContainsSub, List.any_eq_true, List.mem_range]
  constructor
  · rintro ⟨i, _, hpre⟩
    exact List.infix_iff_prefix_suffix.mpr
      ⟨hay.drop i, List.isPrefixOf_iff_prefix.mp hpre, List.drop_suffix i hay⟩
  · intro hinf
    obtain ⟨s, t, hst⟩ := hinf
    have hlen : s.length ≤ hay.length := by
      rw [← hst]
      simp only [List.length_append]
      omega
    refine ⟨s.length, by omega, ?_⟩
    rw [List.isPrefixOf_iff_prefix]
    refine ⟨t, ?_⟩
    have hhay : hay = s ++ (needle ++ t) := by
      rw [← hst, List.append_assoc]
    rw [hhay, List.drop_left]

theorem listContainsSub_mono {x y kw : List Char} (hxy : x <:+: y)
    (h : listContainsSub x kw = true) : listContainsSub y kw = true :=
  listContainsSub_iff_infixOf.mpr ((listContainsSub_iff_infixOf.mp h).trans hxy)

theorem pyStripL_infixOf (cs : List Char) : pyStripL cs <:+: cs := by
  have h1 : cs.dropWhile isPySpace <:+ cs := List.dropWhile_suffix _
  have h2 : (cs.dropWhile isPySpace).reverse.dropWhile isPySpace <:+
      (cs.dropWhile isPySpace).reverse := List.dropWhile_suffix _
  have h3 : pyStripL cs <+: cs.dropWhile isPySpace := by
    rw [← List.reverse_suffix]
    simpa [pyStripL] using h2
  exact List.infix_iff_prefix_suffix.mpr ⟨cs.dropWhile isPySpace, h3, h1⟩

theorem removeInAllItems_infixOf (cs : List Char) : removeInAllItems cs <:+: cs := by
  simp only [removeInAllItems]
  split
  next r2 hr2 =>
    split
    next hlt =>
      have h1 : cs.reverse.dropWhile isPySpace <:+ cs.reverse := List.dropWhile_suffix _
      have h2 : r2 <:+ cs.reverse.dropWhile isPySpace := by
        simp only [dropLitCI] at hr2
        split at hr2
        · cases hr2
          exact List.drop_suffix _ _
        · simp at hr2
      have h3 : r2.dropWhile isPySpace <:+ r2 := List.dropWhile_suffix _
      have h4 : r2.dropWhile isPySpace <:+ cs.reverse := (h3.trans h2).trans h1
      have h5 : (r2.dropWhile isPySpace).reverse <+: cs := by
        rw [← List.reverse_suffix]
        simpa using h4
      exact h5.isInfix
    next => exact List.infix_refl cs
  next => exact List.infix_refl cs

theorem dropWs1_suffix {cs r : List Char} (h : dropWs1 cs = some r) : r <:+ cs := by
  match cs with
  | [] => simp [dropWs1] at h
  | c :: tl =>
    simp only [dropWs1] at h
    split at h
    · cases h
      exact List.dropWhile_suffix _
    · simp at h

theorem dropLitCI_suffix {lit cs r : List Char} (h : dropLitCI lit cs = some r) : r <:+ cs := by
  simp only [dropLitCI] at h
  split at h
  · cases h
    exact List.drop_suffix _ _
  · simp at h

theorem dropLitCI_lit_isPrefixLower {lit cs r : List Char} (h : dropLitCI lit cs = some r) :
    lit <+: pyLowerL cs := by
  simp only [dropLitCI] at h
  split at h
  next heq =>
    refine ⟨pyLowerL (cs.drop lit.length), ?_⟩
    have hsplit : pyLowerL cs = pyLowerL (cs.take lit.length) ++ pyLowerL (cs.drop lit.length) := by
      simp only [pyLowerL, ← List.map_append, List.take_append_drop]
    rw [hsplit]
    rw [show pyLowerL (cs.take lit.length) = lit from heq]
  next => simp at h

theorem matchNumDot_suffix {cs rest : List Char} (h : matchNumDot cs = some rest) :
    rest <:+ cs := by
  match cs with
  | [] => simp [matchNumDot] at h
  | c :: tl =>
    simp only [matchNumDot] at h
    split at h
    · split at h
      next r2 heq =>
        cases h
        have h1 : tl.dropWhile Char.isDigit <:+ tl := List.dropWhile_suffix _
        rw [heq] at h1
        have h2 : r2 <:+ tl := (List.suffix_cons '.' r2).trans h1
        exact ((List.dropWhile_suffix _).trans h2).trans (List.suffix_cons c tl)
      next => simp at h
    · simp at h

theorem matchAndSep_suffix {cs rest : List Char} (h : matchAndSep cs = some rest) :
    rest <:+ cs := by
  simp only [matchAndSep] at h
  split at h
  · simp at h
  next a ha =>
    split at h
    · simp at h
    next b hb =>
      exact ((dropWs1_suffix h).trans (dropLitCI_suffix hb)).trans (dropWs1_suffix ha)

theorem splitNumberedAux_infixOf : ∀ (fuel : ℕ) (acc cs : List Char),
    ∀ p ∈ splitNumberedAux fuel acc cs, p <:+: acc.reverse ++ cs := by
  intro fuel
  induction fuel with
  | zero =>
    intro acc cs p hp
    simp only [splitNumberedAux, List.mem_singleton] at hp
    subst hp
    exact List.infix_refl _
  | succ fuel ih =>
    intro acc cs p hp
    cases cs with
    | nil =>
      simp only [splitNumberedAux, List.mem_singleton] at hp
      subst hp
      exact (List.prefix_append _ _).isInfix
    | cons c tl =>
      simp only [splitNumberedAux] at hp
      split at hp
      next rest hmatch =>
        rcases List.mem_cons.mp hp with rfl | hp2
        · exact (List.prefix_append _ _).isInfix
        · have h1 := ih [] rest p hp2
          simp only [List.reverse_nil, List.nil_append] at h1
          have h2 : rest <:+ c :: tl := matchNumDot_suffix hmatch
          exact h1.trans (h2.isInfix.trans (List.suffix_append _ _).isInfix)
      next =>
        have h1 := ih (c :: acc) tl p hp
        have h2 : (c :: acc).reverse ++ tl = acc.reverse ++ (c :: tl) := by
          simp
        rw [h2] at h1
        exact h1

theorem splitAndAux_infixOf : ∀ (fuel : ℕ) (acc cs : List Char),
    ∀ p ∈ splitAndAux fuel acc cs, p <:+: acc.reverse ++ cs := by
  intro fuel
  induction fuel with
  | zero =>
    intro acc cs p hp
    simp only [splitAndAux, List.mem_singleton] at hp
    subst hp
    exact List.infix_refl _
  | succ fuel ih =>
    intro acc cs p hp
    cases cs with
    | nil =>
      simp only [splitAndAux, List.mem_singleton] at hp
      subst hp
      exact (List.prefix_append _ _).isInfix
    | cons c tl =>
      simp only [splitAndAux] at hp
      split at hp
      next rest hmatch =>
        rcases List.mem_cons.mp hp with rfl | hp2
        · exact (List.prefix_append _ _).isInfix
        · have h1 := ih [] rest p hp2
          simp only [List.reverse_nil, List.nil_append] at h1
          have h2 : rest <:+ c :: tl := matchAndSep_suffix hmatch
          exact h1.trans (h2.isInfix.trans (List.suffix_append _ _).isInfix)
      next =>
        have h1 := ih (c :: acc) tl p hp
        have h2 : (c :: acc).reverse ++ tl = acc.reverse ++ (c :: tl) := by
          simp
        rw [h2] at h1
        exact h1

theorem splitNumbered_infixOf {cs : List Char} : ∀ p ∈ splitNumbered cs, p <:+: cs := by
  intro p hp
  have := splitNumberedAux_infixOf (cs.length + 1) [] cs p hp
  simpa using this

theorem splitAnd_infixOf {cs : List Char} : ∀ p ∈ splitAnd cs, p <:+: cs := by
  intro p hp
  have := splitAndAux_infixOf (cs.length + 1) [] cs p hp
  simpa using this

theorem lit_infix_lower_of_suffix {lit a cs : List Char} (hsuf : a <:+ cs)
    (hpre : lit <+: pyLowerL a) : lit <:+: pyLowerL cs :=
  List.infix_iff_prefix_suffix.mpr ⟨pyLowerL a, hpre, List.IsSuffix.map _ hsuf⟩

theorem restDoesNotEqual_has_equal {cs r : List Char} (h : restDoesNotEqual cs = some r) :
    listContainsSub (pyLowerL cs) ['e', 'q', 'u', 'a', 'l'] = true := by
  simp only [restDoesNotEqual, Option.bind_eq_bind] at h
  rw [Option.bind_eq_some] at h
  obtain ⟨a, ha, h⟩ := h
  rw [Option.bind_eq_some] at h
  obtain ⟨b, hb, h⟩ := h
  rw [Option.bind_eq_some] at h
  obtain ⟨c, hc, h⟩ := h
  rw [Option.bind_eq_some] at h
  obtain ⟨d, hd, h⟩ := h
  rw [Option.bind_eq_some] at h
  obtain ⟨e, he, h⟩ := h
  rw [Option.bind_eq_some] at h
  obtain ⟨f, hf, _⟩ := h
  have hsuf : e <:+ cs :=
    ((((dropWs1_suffix he).trans (dropLitCI_suffix hd)).trans (dropWs1_suffix hc)).trans
      (dropLitCI_suffix hb)).trans (dropWs1_suffix ha)
  exact listContainsSub_iff_infixOf.mpr
    (lit_infix_lower_of_suffix hsuf (dropLitCI_lit_isPrefixLower hf))

theorem restDoesNotContain_has_contain {cs r : List Char} (h : restDoesNotContain cs = some r) :
    listContainsSub (pyLowerL cs) ['c', 'o', 'n', 't', 'a', 'i', 'n'] = true := by
  simp only [restDoesNotContain, Option.bind_eq_bind] at h
  rw [Option.bind_eq_some] at h
  obtain ⟨a, ha, h⟩ := h
  rw [Option.bind_eq_some] at h
  obtain ⟨b, hb, h⟩ := h
  rw [Option.bind_eq_some] at h
  obtain ⟨c, hc, h⟩ := h
  rw [Option.bind_eq_some] at h
  obtain ⟨d, hd, h⟩ := h
  rw [Option.bind_eq_some] at h
  obtain ⟨e, he, h⟩ := h
  rw [Option.bind_eq_some] at h
  obtain ⟨f, hf, _⟩ := h
  have hsuf : e <:+ cs :=
    ((((dropWs1_suffix he).trans (dropLitCI_suffix hd)).trans (dropWs1_suffix hc)).trans
      (dropLitCI_suffix hb)).trans (dropWs1_suffix ha)
  exact listContainsSub_iff_infixOf.mpr
    (lit_infix_lower_of_suffix hsuf (dropLitCI_lit_isPrefixLower hf))

theorem restEquals_has_equal {cs r : List Char} (h : restEquals cs = some r) :
    listContainsSub (pyLowerL cs) ['e', 'q', 'u', 'a', 'l'] = true := by
  simp only [restEquals, Option.bind_eq_bind] at h
  rw [Option.bind_eq_some] at h
  obtain ⟨a, ha, h⟩ := h
  rw [Option.bind_eq_some] at h
  obtain ⟨b, hb, _⟩ := h
  exact listContainsSub_iff_infixOf.mpr
    (lit_infix_lower_of_suffix (dropWs1_suffix ha) (dropLitCI_lit_isPrefixLower hb))

theorem restStartsWith_has_start {cs r : List Char} (h : restStartsWith cs = some r) :
    listContainsSub (pyLowerL cs) ['s', 't', 'a', 'r', 't'] = true := by
  simp only [restStartsWith, Option.bind_eq_bind] at h
  rw [Option.bind_eq_some] at h
  obtain ⟨a, ha, h⟩ := h
  rw [Option.bind_eq_some] at h
  obtain ⟨b, hb, _⟩ := h
  exact listContainsSub_iff_infixOf.mpr
    (lit_infix_lower_of_suffix (dropWs1_suffix ha) (dropLitCI_lit_isPrefixLower hb))

theorem restContains_has_contain {cs r : List Char} (h : restContains cs = some r) :
    listContainsSub (pyLowerL cs) ['c', 'o', 'n', 't', 'a', 'i', 'n'] = true := by
  simp only [restContains, Option.bind_eq_bind] at h
  rw [Option.bind_eq_some] at h
  obtain ⟨a, ha, h⟩ := h
  rw [Option.bind_eq_some] at h
  obtain ⟨b, hb, _⟩ := h
  exact listContainsSub_iff_infixOf.mpr
    (lit_infix_lower_of_suffix (dropWs1_suffix ha) (dropLitCI_lit_isPrefixLower hb))

theorem lazySplitAux_rm_suffix {rm : List Char → Option (List Char)} :
    ∀ {acc cs : List Char} {col rest : List Char},
    lazySplitAux rm acc cs = some (col, rest) →
    ∃ cs2, cs2 <:+ cs ∧ rm cs2 = some rest := by
  intro acc cs
  induction cs generalizing acc with
  | nil => intro col rest h; simp [lazySplitAux] at h
  | cons c tl ih =>
    intro col rest h
    simp only [lazySplitAux] at h
    split at h
    · simp at h
    · split at h
      next r hr =>
        simp only [Prod.mk.injEq, Option.some.injEq] at h
        obtain ⟨_, rfl⟩ := h
        exact ⟨tl, List.suffix_cons c tl, hr⟩
      next =>
        obtain ⟨cs2, hsuf, hrm⟩ := ih h
        exact ⟨cs2, hsuf.trans (List.suffix_cons c tl), hrm⟩

/-- Totality core for keyword-free text: a sub-clause whose lowering
contains none of the literals "equal", "contain", "start" matches none
of the five comparison patterns, so it parses to no condition. -/
theorem parseSubClause_no_keyword {sub : List Char}
    (he : listContainsSub (pyLowerL sub) ['e', 'q', 'u', 'a', 'l'] = false)
    (hc : listContainsSub (pyLowerL sub) ['c', 'o', 'n', 't', 'a', 'i', 'n'] = false)
    (hs : listContainsSub (pyLowerL sub) ['s', 't', 'a', 'r', 't'] = false) :
    parseSubClause sub = none := by
  have contra : ∀ {kw cs2 : List Char}, cs2 <:+ sub →
      listContainsSub (pyLowerL cs2) kw = true →
      listContainsSub (pyLowerL sub) kw = false → False := by
    intro kw cs2 hsuf hin hout
    have hmono := listContainsSub_mono ((List.IsSuffix.map _ hsuf).isInfix) hin
    have hmono2 : listContainsSub (pyLowerL sub) kw = true := hmono
    rw [hout] at hmono2
    cases hmono2
  have h1 : lazySplit restDoesNotEqual sub = none := by
    cases hl : lazySplit restDoesNotEqual sub with
    | none => rfl
    | some p =>
      obtain ⟨col, rest⟩ := p
      obtain ⟨cs2, hsuf, hrm⟩ := lazySplitAux_rm_suffix hl
      exact (contra hsuf (restDoesNotEqual_has_equal hrm) he).elim
  have h2 : lazySplit restDoesNotContain sub = none := by
    cases hl : lazySplit restDoesNotContain sub with
    | none => rfl
    | some p =>
      obtain ⟨col, rest⟩ := p
      obtain ⟨cs2, hsuf, hrm⟩ := lazySplitAux_rm_suffix hl
      exact (contra hsuf (restDoesNotContain_has_contain hrm) hc).elim
  have h3 : lazySplit restEquals sub = none := by
    cases hl : lazySplit restEquals sub with
    | none => rfl
    | some p =>
      obtain ⟨col, rest⟩ := p
      obtain ⟨cs2, hsuf, hrm⟩ := lazySplitAux_rm_suffix hl
      exact (contra hsuf (restEquals_has_equal hrm) he).elim
  have h4 : lazySplit restStartsWith sub = none := by
    cases hl : lazySplit restStartsWith sub with
    | none => rfl
    | some p =>
      obtain ⟨col, rest⟩ := p
      obtain ⟨cs2, hsuf, hrm⟩ := lazySplitAux_rm_suffix hl
      exact (contra hsuf (restStartsWith_has_start hrm) hs).elim
  have h5 : lazySplit restContains sub = none := by
    cases hl : lazySplit restContains sub with
    | none => rfl
    | some p =>
      obtain ⟨col, rest⟩ := p
      obtain ⟨cs2, hsuf, hrm⟩ := lazySplitAux_rm_suffix hl
      exact (contra hsuf (restContains_has_contain hrm) hc).elim
  simp only [parseSubClause, h1, h2, h3, h4, h5]

/-- Keyword-free condition text parses to the empty condition list:
whatever the guard clauses do, no sub-clause can match any of the five
comparison patterns when the lowered text contains none of "equal",
"contain", "start". -/
theorem parse_applies_if_no_keyword (s : String)
    (he : strContains (pyLower (pyStrip s)) "equal" = false)
    (hc : strContains (pyLower (pyStrip s)) "contain" = false)
    (hs : strContains (pyLower (pyStrip s)) "start" = false) :
    parse_applies_if_condition (some s) = [] := by
  have he2 : listContainsSub (pyLowerL (pyStrip s).data) ['e', 'q', 'u', 'a', 'l'] = false := he
  have hc2 : listContainsSub (pyLowerL (pyStrip s).data)
    ['c', 'o', 'n', 't', 'a', 'i', 'n'] = false := hc
  have hs2 : listContainsSub (pyLowerL (pyStrip s).data) ['s', 't', 'a', 'r', 't'] = false := hs
  have hkey : ∀ {kw sub : List Char}, sub <:+: (pyStrip s).data →
      listContainsSub (pyLowerL (pyStrip s).data) kw = false →
      listContainsSub (pyLowerL sub) kw = false := by
    intro kw sub hinf hfalse
    cases hcs : listContainsSub (pyLowerL sub) kw with
    | false => rfl
    | true =>
      have hmono := listContainsSub_mono (List.IsInfix.map _ hinf) hcs
      have h2 : listContainsSub (pyLowerL (pyStrip s).data) kw = true := hmono
      rw [hfalse] at h2
      cases h2
  simp only [parse_applies_if_condition]
  split
  · rfl
  split
  · rfl
  split
  · rfl
  rw [List.flatten_eq_nil_iff]
  intro l hl
  rw [List.mem_map] at hl
  obtain ⟨part, hpart, rfl⟩ := hl
  have hpinf : part <:+: (pyStrip s).data := splitNumbered_infixOf part hpart
  simp only [processPart]
  split
  · rfl
  rw [List.filterMap_eq_nil_iff]
  intro sub hsub
  rw [List.mem_filter] at hsub
  obtain ⟨hsubmem, _⟩ := hsub
  rw [List.mem_map] at hsubmem
  obtain ⟨sub1, hsub1, rfl⟩ := hsubmem
  have hchain : pyStripL sub1 <:+: (pyStrip s).data :=
    (((pyStripL_infixOf sub1).trans (splitAnd_infixOf sub1 hsub1)).trans
      (removeInAllItems_infixOf (pyStripL part))).trans
      ((pyStripL_infixOf part).trans hpinf)
  exact parseSubClause_no_keyword (hkey hchain he2) (hkey hchain hc2) (hkey hchain hs2)

/-- C6: the condition parser is total and never raises — modelled by a
total Lean function — and yields the empty condition list for: a null
cell, empty text, text containing "no condition", any text without a
recognised comparison keyword (which covers every
"applies if invoiced ... carrier" sentence with no comparison, whether
or not the length-50 guard of the source fires), such as the concrete
"Applies if invoiced by Carrier", and a sub-clause whose pattern
matches but yields zero single-quoted values ("1. Carrier Name equals
TRUE"); and the evaluator reports an empty condition list as satisfied
with no failure reason. -/
theorem parser_total_unparseable_empty :
    parse_applies_if_condition none = [] ∧
    parse_applies_if_condition (some "") = [] ∧
    (∀ s : String, strContains (pyLower (pyStrip s)) "no condition" = true →
      parse_applies_if_condition (some s) = []) ∧
    (∀ s : String, strContains (pyLower (pyStrip s)) "equal" = false →
      strContains (pyLower (pyStrip s)) "contain" = false →
      strContains (pyLower (pyStrip s)) "start" = false →
      parse_applies_if_condition (some s) = []) ∧
    parse_applies_if_condition (some "Applies if invoiced by Carrier") = [] ∧
    parse_applies_if_condition (some "1. Carrier Name equals TRUE") = [] ∧
    (∀ (col : List Char) (t : CondType) (rest : List Char),
      findQuoted rest = [] → mkCond col t rest = none) ∧
    (∀ (etof : String) (row : ShipRow),
      check_applies_if_condition [] etof row = (true, none)) := by
  refine ⟨by decide, by decide, ?_, parse_applies_if_no_keyword, by decide, by decide, ?_, ?_⟩
  · intro s h
    simp [parse_applies_if_condition, h]
  · intro col t rest h
    simp only [mkCond, h]
    rfl
  · intro etof row
    rfl

/-- Witness for C6: the no-condition and no-keyword conjuncts applied
at concrete inputs. -/
theorem parser_total_unparseable_empty_witness :
    parse_applies_if_condition (some "No condition") = [] ∧
    parse_applies_if_condition (some "Applies if invoiced by the Carrier named below") = [] :=
  ⟨parser_total_unparseable_empty.2.2.1 "No condition" (by decide),
   parser_total_unparseable_empty.2.2.2.1 "Applies if invoiced by the Carrier named below"
     (by decide) (by decide) (by decide)⟩
